import Mathlib

/-!
Verification of the instrumented stepped-execution engine of the CodeLand
repository (`src/js/executionEngine.js`).

The engine is shallowly embedded: source text is a `List Char`, JavaScript
`split('\n')`, `trim()`, `startsWith`, `includes` and `Array.join('\n')` are
modelled by executable Lean functions below, the mutable `executionState`
object is an explicit `ExecutionState` value, and the hook invocations that
the sandboxed evaluation of the instrumented program performs (`__track`,
`__captureVar`, the substituted `console.log`, and any exception the program
itself raises) are modelled by a list of `Event`s consumed by `runEvents`.
`execute` then wraps `runEvents` with the language check and the catch-path
of the source, exactly mirroring the control flow of the JavaScript class.
-/

namespace CodeLand

/-- Whitespace characters removed by JavaScript `String.prototype.trim`. -/
def jsWs (c : Char) : Bool :=
  c = ' ' || c = '\t' || c = '\n' || c = '\r' ||
  c = Char.ofNat 0x0b || c = Char.ofNat 0x0c || c = Char.ofNat 0xa0 ||
  c = Char.ofNat 0x2028 || c = Char.ofNat 0x2029 || c = Char.ofNat 0xfeff

/-- JavaScript `line.trim()` on a line of characters. -/
def jsTrim (l : List Char) : List Char :=
  ((l.dropWhile jsWs).reverse.dropWhile jsWs).reverse

/-- JavaScript `code.split('\n')`: splits at every newline; the empty string
yields the one-element list `[[]]`, exactly as `''.split('\n')` yields `['']`. -/
def splitNl : List Char → List (List Char)
  | [] => [[]]
  | c :: cs =>
    if c = '\n' then [] :: splitNl cs
    else
      match splitNl cs with
      | [] => [[c]]
      | l :: ls => (c :: l) :: ls

/-- JavaScript `lines.join('\n')`. -/
def joinNl : List (List Char) → List Char
  | [] => []
  | [l] => l
  | l :: ls => l ++ '\n' :: joinNl ls

/-- Decimal digit character, as rendered by JavaScript number-to-string. -/
def digitChar (d : Nat) : Char :=
  if d = 0 then '0' else if d = 1 then '1' else if d = 2 then '2'
  else if d = 3 then '3' else if d = 4 then '4' else if d = 5 then '5'
  else if d = 6 then '6' else if d = 7 then '7' else if d = 8 then '8'
  else '9'

/-- Fuel-indexed decimal rendering; the fuel only bounds the digit count. -/
def natToCharsAux : Nat → Nat → List Char
  | 0, _ => []
  | fuel + 1, n =>
    if n < 10 then [digitChar n]
    else natToCharsAux fuel (n / 10) ++ [digitChar (n % 10)]

/-- Decimal rendering of a natural number, as JavaScript renders an integer
inside a template literal. -/
def natToChars (n : Nat) : List Char := natToCharsAux (n + 1) n

/-- String form of a natural number. -/
def natToStr (n : Nat) : String := String.mk (natToChars n)

/-- The numbered pairing `(idx, line)` that JavaScript `map((line, idx) => …)`
and `forEach((line, idx) => …)` iterate over, starting the index at `i`. -/
def enumLines : Nat → List (List Char) → List (Nat × List Char)
  | _, [] => []
  | i, l :: ls => (i, l) :: enumLines (i + 1) ls

/-- One trace entry of `executionState.executionHistory`, a tagged variant
mirroring the four object shapes pushed by the source. -/
inductive Entry where
  | line (step : Nat) (lineNum : Nat) (vars : List (String × String))
  | capture (step : Nat) (name : String) (value : String) (lineNum : Nat)
  | console (step : Nat) (output : String) (lineNum : Nat)
  | error (step : Nat) (message : String) (lineNum : Nat)
deriving DecidableEq

/-- The `step` field embedded in a trace entry. -/
def Entry.stepOf : Entry → Nat
  | .line s _ _ => s
  | .capture s _ _ _ => s
  | .console s _ _ => s
  | .error s _ _ => s

/-- The `line` field embedded in a trace entry. -/
def Entry.lineOf : Entry → Nat
  | .line _ l _ => l
  | .capture _ _ _ l => l
  | .console _ _ l => l
  | .error _ _ l => l

/-- Whether the entry is a `line`-visit entry for line `L`. -/
def Entry.isLineVisit : Entry → Nat → Bool
  | .line _ l _, L => l = L
  | _, _ => false

/-- The engine's `executionState` object.  The JavaScript `variables` object
is the `vars` association list (`variables` is reserved in Lean); the
JavaScript `Set` of breakpoints keeps insertion order and unique members,
modelled by a duplicate-free list. -/
structure ExecutionState where
  currentLine : Nat
  vars : List (String × String)
  callStack : List String
  executionHistory : List Entry
  breakpoints : List Nat
  isPaused : Bool
  step : Nat
deriving DecidableEq

/-- The fresh `executionState` built by the constructor and by `reset()`. -/
def initialState : ExecutionState :=
  { currentLine := 0
    vars := []
    callStack := []
    executionHistory := []
    breakpoints := []
    isPaused := false
    step := 0 }

/-- The `ExecutionEngine` instance: stored source, stored language tag, and
the owned execution state. -/
structure Engine where
  code : List Char
  language : String
  executionState : ExecutionState
deriving DecidableEq

/-- A freshly constructed engine. -/
def initialEngine : Engine :=
  { code := [], language := "javascript", executionState := initialState }

/-- the source's `reset()`: replaces the whole `executionState` object. -/
def reset (eng : Engine) : Engine :=
  { eng with executionState := initialState }

/-- the source's `setCode(code, language)`: stores both and calls `reset()`. -/
def setCode (eng : Engine) (code : List Char) (language : String) : Engine :=
  reset { eng with code := code, language := language }

/-- the source's `addBreakpoint(lineNumber)`: `Set.add`. -/
def addBreakpoint (eng : Engine) (l : Nat) : Engine :=
  { eng with executionState :=
    { eng.executionState with breakpoints :=
        if l ∈ eng.executionState.breakpoints then eng.executionState.breakpoints
        else eng.executionState.breakpoints ++ [l] } }

/-- the source's `removeBreakpoint(lineNumber)`: `Set.delete`. -/
def removeBreakpoint (eng : Engine) (l : Nat) : Engine :=
  { eng with executionState :=
    { eng.executionState with breakpoints := eng.executionState.breakpoints.erase l } }

/-- the source's `stepNext()`: it only clears `isPaused`. -/
def stepNext (eng : Engine) : Engine :=
  { eng with executionState := { eng.executionState with isPaused := false } }

/-- One observable hook invocation performed by the sandboxed evaluation of
the instrumented program: a `__track(line)` call, a `__captureVar(name, value)`
call, a substituted `console.log` call (the joined output text), or an
exception raised by the program itself.  The evaluation of the JavaScript
text by `new Function` is not itself embeddable; a run is modelled by the
sequence of hook invocations it performs. -/
inductive Event where
  | track (lineNum : Nat)
  | capture (name : String) (value : String)
  | consoleLog (output : String)
  | progError (message : String)
deriving DecidableEq

/-- JavaScript object-property assignment `variables[name] = value` on an
insertion-ordered association list: an existing key is updated in place, a
new key is appended. -/
def setVar : List (String × String) → String → String → List (String × String)
  | [], n, v => [(n, v)]
  | (k, w) :: rest, n, v =>
    if k = n then (k, v) :: rest else (k, w) :: setVar rest n v

/-- The breakpoint sentinel message, a template literal in the source. -/
def breakpointMsg (l : Nat) : String := "BREAKPOINT at line " ++ natToStr l

/-- the source's `__track` hook: set `currentLine`, append a `line` entry at
the current step, then test the breakpoint set; an armed line sets
`isPaused` and throws the sentinel (returned as `some message`). -/
def trackHook (st : ExecutionState) (lineNum : Nat) : ExecutionState × Option String :=
  let st1 : ExecutionState :=
    { st with currentLine := lineNum
              executionHistory :=
                st.executionHistory ++ [Entry.line st.step lineNum st.vars]
              step := st.step + 1 }
  if lineNum ∈ st1.breakpoints then
    ({ st1 with isPaused := true }, some (breakpointMsg lineNum))
  else (st1, none)

/-- the source's `__captureVar` hook: update `variables[name]` and append a
`variable` entry carrying the current line. -/
def captureVarHook (st : ExecutionState) (name value : String) : ExecutionState :=
  { st with vars := setVar st.vars name value
            executionHistory :=
              st.executionHistory ++ [Entry.capture st.step name value st.currentLine]
            step := st.step + 1 }

/-- the source's substituted `console.log`: append a `console` entry carrying
the joined output and the current line. -/
def consoleHook (st : ExecutionState) (output : String) : ExecutionState :=
  { st with executionHistory :=
              st.executionHistory ++ [Entry.console st.step output st.currentLine]
            step := st.step + 1 }

/-- Process the hook invocations of one sandboxed evaluation in order.
Returns the state reached and `some message` when the evaluation ends in a
thrown exception (breakpoint sentinel or program error), `none` on normal
completion. -/
def runEvents : ExecutionState → List Event → ExecutionState × Option String
  | st, [] => (st, none)
  | st, Event.track l :: es =>
    match trackHook st l with
    | (st1, none) => runEvents st1 es
    | (st1, some m) => (st1, some m)
  | st, Event.capture n v :: es => runEvents (captureVarHook st n v) es
  | st, Event.consoleLog t :: es => runEvents (consoleHook st t) es
  | st, Event.progError m :: _ => (st, some m)

/-- the catch-path of the source's `execute()`: append an `error` entry at
the current step and line. -/
def errorPath (st : ExecutionState) (msg : String) : ExecutionState :=
  { st with executionHistory :=
              st.executionHistory ++ [Entry.error st.step msg st.currentLine]
            step := st.step + 1 }

/-- Result object of `execute()`: either `{success: true, result, state}` or
`{error, stack, state}` (the `result` value and the `stack` text carry no
engine state and are omitted). -/
inductive ExecResult where
  | success (state : ExecutionState)
  | failure (error : String) (state : ExecutionState)
deriving DecidableEq

/-- the source's `execute()`: reject a non-JavaScript language tag without
touching the state, otherwise evaluate the instrumented program (its hook
invocations are `events`) and convert a thrown exception through the
catch-path. -/
def execute (eng : Engine) (events : List Event) : Engine × ExecResult :=
  if eng.language ≠ "javascript" then
    (eng, ExecResult.failure "Only JavaScript execution is supported in browser"
            eng.executionState)
  else
    match runEvents eng.executionState events with
    | (st, none) => ({ eng with executionState := st }, ExecResult.success st)
    | (st, some m) =>
      let st2 := errorPath st m
      ({ eng with executionState := st2 }, ExecResult.failure m st2)

/-- Text inserted before an instrumented line carrying its 1-based number. -/
def trackCallText (n : Nat) : List Char :=
  String.toList "__track(" ++ natToChars n ++ String.toList "); "

/-- Whether the source keeps a line unmodified: blank after trimming, or the
trimmed line starts with the single-line comment marker. -/
def skippedLine (line : List Char) : Bool :=
  (jsTrim line).isEmpty || List.isPrefixOf (String.toList "//") (jsTrim line)

/-- Rewrite of one line performed by the instrumenter's `map` callback. -/
def instrumentLine (idx : Nat) (line : List Char) : List Char :=
  if skippedLine line then line else trackCallText (idx + 1) ++ line

/-- the source's `instrumentCode(code)`: split into lines, prefix every
non-blank non-comment line with its tracking call, and join back. -/
def instrumentCode (code : List Char) : List Char :=
  joinNl ((enumLines 0 (splitNl code)).map fun p => instrumentLine p.1 p.2)

/-- JavaScript `code.includes(pat)`: whether `pat` occurs contiguously. -/
def includesSeq : List Char → List Char → Bool
  | pat, [] => pat.isEmpty
  | pat, c :: cs => List.isPrefixOf pat (c :: cs) || includesSeq pat cs

/-- the source's `getNodeType(code)` line classifier (prefix and substring
tests on the trimmed line). -/
def getNodeType (code : List Char) : String :=
  if List.isPrefixOf (String.toList "function") code
     || includesSeq (String.toList "=>") code then "function"
  else if List.isPrefixOf (String.toList "if") code
     || List.isPrefixOf (String.toList "else") code then "conditional"
  else if List.isPrefixOf (String.toList "for") code
     || List.isPrefixOf (String.toList "while") code then "loop"
  else if List.isPrefixOf (String.toList "return") code then "return"
  else if includesSeq (String.toList "=") code
     && !includesSeq (String.toList "==") code then "assignment"
  else "statement"

/-- One node of the flow graph. -/
structure FlowNode where
  id : Nat
  line : Nat
  code : List Char
  type : String
  executed : Bool
deriving DecidableEq

/-- One edge of the flow graph. -/
structure FlowEdge where
  fromLine : Nat
  toLine : Nat
deriving DecidableEq

/-- The flow graph returned by `getExecutionFlow()`. -/
structure Flow where
  nodes : List FlowNode
  edges : List FlowEdge
deriving DecidableEq

/-- Node list pushed by the source's `getExecutionFlow()` `forEach`: one node
per non-blank line, with the `executed` flag testing `h.line === lineNum`
over the whole history. -/
def flowNodes (eng : Engine) : List FlowNode :=
  (enumLines 0 (splitNl eng.code)).filterMap fun p =>
    let lineNum := p.1 + 1
    let trimmed := jsTrim p.2
    if trimmed.isEmpty then none
    else some
      { id := lineNum
        line := lineNum
        code := trimmed
        type := getNodeType trimmed
        executed :=
          eng.executionState.executionHistory.any fun h => h.lineOf == lineNum }

/-- Edge list pushed by the same `forEach`: for a non-blank line at index
`idx > 0` whose trimmed text starts with neither a closing brace nor
`else`, the source pushes `{from: idx, to: lineNum}`. -/
def flowEdges (eng : Engine) : List FlowEdge :=
  (enumLines 0 (splitNl eng.code)).filterMap fun p =>
    let trimmed := jsTrim p.2
    if trimmed.isEmpty then none
    else if decide (0 < p.1)
            && !List.isPrefixOf (String.toList "\x7d") trimmed
            && !List.isPrefixOf (String.toList "else") trimmed then
      some { fromLine := p.1, toLine := p.1 + 1 }
    else none

/-- the source's `getExecutionFlow()` (the single `forEach` pushes into the
two lists independently, so they are built by two traversals here). -/
def getExecutionFlow (eng : Engine) : Flow :=
  { nodes := flowNodes eng, edges := flowEdges eng }

/-- Lines of the `line`-visit entries of a history, in order. -/
def lineVisitLines (hist : List Entry) : List Nat :=
  hist.filterMap fun e =>
    match e with
    | Entry.line _ l _ => some l
    | _ => none

/-- Number of `line`-visit entries for line `l` (the tally that the source's
`analyzePerformance()` accumulates in `lineExecutionCounts`). -/
def visitCount (hist : List Entry) (l : Nat) : Nat := (lineVisitLines hist).count l

/-- Largest visited line number (0 when none). -/
def maxVisitedLine (hist : List Entry) : Nat := (lineVisitLines hist).foldr max 0

/-- Keys of `lineExecutionCounts` as `Object.entries` lists them: the
distinct visited lines in ascending numeric order (integer-like keys of a
JavaScript object enumerate in ascending order). -/
def entryKeys (hist : List Entry) : List Nat :=
  (List.range (maxVisitedLine hist + 1)).filter fun l => 0 < visitCount hist l

/-- Comparator passed to the hotspot sort: `(a, b) => b[1] - a[1]`, i.e.
descending by visit count (JavaScript sort is stable). -/
def countGe (a b : Nat × Nat) : Prop := b.2 ≤ a.2

instance : DecidableRel countGe := fun a b => Nat.decLe b.2 a.2

instance : IsTotal (Nat × Nat) countGe :=
  ⟨fun a b => (Nat.le_total b.2 a.2).imp (fun h => h) fun h => h⟩

instance : IsTrans (Nat × Nat) countGe :=
  ⟨fun _ _ _ hab hbc => Nat.le_trans hbc hab⟩

/-- The `(line, count)` pairs surviving the `count > 10` filter, sorted by
descending count with ties kept in ascending-line (entry) order. -/
def hotspotPairs (hist : List Entry) : List (Nat × Nat) :=
  List.insertionSort countGe
    (((entryKeys hist).map fun l => (l, visitCount hist l)).filter fun p => 10 < p.2)

/-- One hotspot object of `analyzePerformance()`. -/
structure Hotspot where
  line : Nat
  executionCount : Nat
  code : List Char
deriving DecidableEq

/-- Report returned by `analyzePerformance()`; `avgStepsPerLine` is the
JavaScript number `step / lineCount`, modelled as a rational. -/
structure PerfReport where
  totalSteps : Nat
  hotspots : List Hotspot
  avgStepsPerLine : ℚ
deriving DecidableEq

/-- the source's `analyzePerformance()`. -/
def analyzePerformance (eng : Engine) : PerfReport :=
  let hist := eng.executionState.executionHistory
  { totalSteps := eng.executionState.step
    hotspots :=
      (hotspotPairs hist).map fun p =>
        { line := p.1
          executionCount := p.2
          code := (splitNl eng.code).getD (p.1 - 1) [] }
    avgStepsPerLine :=
      (eng.executionState.step : ℚ) / ((splitNl eng.code).length : ℚ) }

/-- Whether, processing `events` from `st`, the tracking hook is actually
invoked with line `L` at some point before the run aborts ("a visit to `L`
occurs during `execute()`"). -/
def visitsLine : ExecutionState → List Event → Nat → Bool
  | _, [], _ => false
  | st, Event.track l :: es, L =>
    if l = L then true
    else
      match trackHook st l with
      | (st1, none) => visitsLine st1 es L
      | (_, some _) => false
  | st, Event.capture n v :: es, L => visitsLine (captureVarHook st n v) es L
  | st, Event.consoleLog t :: es, L => visitsLine (consoleHook st t) es L
  | _, Event.progError _ :: _, _ => false

/-- Whether, processing `events` from `st`, the evaluated program itself
raises an exception (as opposed to the breakpoint sentinel of the hook). -/
def raisesProgError : ExecutionState → List Event → Bool
  | _, [] => false
  | st, Event.track l :: es =>
    match trackHook st l with
    | (st1, none) => raisesProgError st1 es
    | (_, some _) => false
  | st, Event.capture n v :: es => raisesProgError (captureVarHook st n v) es
  | st, Event.consoleLog t :: es => raisesProgError (consoleHook st t) es
  | _, Event.progError _ :: _ => true

/-- Whether some `line`-visit entry of the history is for line `L`. -/
def hasLineVisit (hist : List Entry) (L : Nat) : Bool :=
  hist.any fun e => e.isLineVisit L

/-- Line of the last `line`-visit entry of the history, if any. -/
def lastLineVisit (hist : List Entry) : Option Nat := (lineVisitLines hist).getLast?

/-- Step-counter invariant of the data model: the `step` field equals the
history length, and the steps stored in the entries are exactly
`0, 1, …, length - 1` in order. -/
def stepInv (st : ExecutionState) : Prop :=
  st.step = st.executionHistory.length ∧
  st.executionHistory.map Entry.stepOf = List.range st.executionHistory.length

instance (st : ExecutionState) : Decidable (stepInv st) := by
  unfold stepInv; infer_instance

/-- Line-consistency invariant of reachable states: `currentLine` is 0 or has
a `line`-visit entry, and every entry's `line` field is 0 or has a
`line`-visit entry. -/
def lineInv (st : ExecutionState) : Prop :=
  (st.currentLine = 0 ∨ hasLineVisit st.executionHistory st.currentLine = true) ∧
  ∀ e ∈ st.executionHistory,
    e.lineOf = 0 ∨ hasLineVisit st.executionHistory e.lineOf = true

instance (st : ExecutionState) : Decidable (lineInv st) := by
  unfold lineInv; infer_instance

/-- Example engine with one armed breakpoint on line 2. -/
def engC1w : Engine :=
  addBreakpoint
    (setCode initialEngine (String.toList "let a = 1;\nlet b = 2;\nlet c = 3;")
      "javascript") 2

/-- Example engine with two armed breakpoints, on lines 1 and 2. -/
def engC1c : Engine :=
  addBreakpoint
    (addBreakpoint
      (setCode initialEngine (String.toList "let a = 1;\nlet b = 2;") "javascript") 1) 2

/-- Example engine whose source has a blank line between two code lines. -/
def engC5 : Engine := setCode initialEngine (String.toList "a\n\nb") "javascript"

/-- Example engine after one run that visited line 1. -/
def engC6w : Engine :=
  (execute (setCode initialEngine (String.toList "x = 1") "javascript")
    [Event.track 1]).1

/-- Example history with exactly 11 visits to line 2. -/
def histC7 : List Entry := List.replicate 11 (Entry.line 0 2 [])

/-- Example engine whose history holds the 11 visits of `histC7`. -/
def engC7 : Engine :=
  { code := String.toList "a\nb"
    language := "javascript"
    executionState := { initialState with executionHistory := histC7, step := 11 } }

/-- Example engine with a language tag that is not `javascript`. -/
def engC8 : Engine := setCode initialEngine (String.toList "print(1)") "python"

theorem splitNl_ne_nil (s : List Char) : splitNl s ≠ [] := by
  cases s with
  | nil => simp [splitNl]
  | cons c cs =>
    simp only [splitNl]
    split
    · simp
    · split <;> simp

theorem noNl_mem_splitNl :
    ∀ {s l : List Char}, l ∈ splitNl s → '\n' ∉ l := by
  intro s
  induction s with
  | nil =>
    intro l h
    simp [splitNl] at h
    simp [h]
  | cons c cs ih =>
    intro l h
    by_cases hc : c = '\n'
    · rw [splitNl, if_pos hc] at h
      rcases List.mem_cons.mp h with h | h
      · simp [h]
      · exact ih h
    · rcases hsp : splitNl cs with _ | ⟨l0, ls⟩
      · exact absurd hsp (splitNl_ne_nil cs)
      · rw [splitNl, if_neg hc, hsp] at h
        rcases List.mem_cons.mp h with h | h
        · subst h
          intro hm
          rcases List.mem_cons.mp hm with hm | hm
          · exact hc hm.symm
          · exact ih (hsp ▸ List.mem_cons_self l0 ls) hm
        · exact ih (hsp ▸ List.mem_cons_of_mem l0 h)

theorem splitNl_of_no_newline : ∀ {l : List Char}, '\n' ∉ l → splitNl l = [l] := by
  intro l
  induction l with
  | nil => intro _; rfl
  | cons c cs ih =>
    intro h
    rw [List.mem_cons, not_or] at h
    obtain ⟨h1, h2⟩ := h
    have hc : ¬(c = '\n') := fun e => h1 e.symm
    rw [splitNl, if_neg hc, ih h2]

theorem splitNl_append_newline :
    ∀ {l r : List Char}, '\n' ∉ l → splitNl (l ++ '\n' :: r) = l :: splitNl r := by
  intro l r
  induction l with
  | nil =>
    intro _
    simp [splitNl]
  | cons c cs ih =>
    intro h
    rw [List.mem_cons, not_or] at h
    obtain ⟨h1, h2⟩ := h
    have hc : ¬(c = '\n') := fun e => h1 e.symm
    rw [List.cons_append, splitNl, if_neg hc, ih h2]

theorem splitNl_joinNl :
    ∀ {ls : List (List Char)}, ls ≠ [] → (∀ l ∈ ls, '\n' ∉ l) →
      splitNl (joinNl ls) = ls := by
  intro ls
  induction ls with
  | nil => intro h; exact absurd rfl h
  | cons l ls ih =>
    intro _ hmem
    cases ls with
    | nil =>
      simp only [joinNl]
      exact splitNl_of_no_newline (hmem l (List.mem_cons_self l []))
    | cons l' ls' =>
      have hj : joinNl (l :: l' :: ls') = l ++ '\n' :: joinNl (l' :: ls') := rfl
      rw [hj, splitNl_append_newline (hmem l (List.mem_cons_self _ _)),
        ih (by simp) fun x hx => hmem x (List.mem_cons_of_mem _ hx)]

theorem digitChar_ne_newline (d : Nat) : digitChar d ≠ '\n' := by
  unfold digitChar
  repeat' split
  all_goals decide

theorem natToCharsAux_no_newline :
    ∀ (fuel n : Nat), '\n' ∉ natToCharsAux fuel n := by
  intro fuel
  induction fuel with
  | zero => intro n; simp [natToCharsAux]
  | succ f ih =>
    intro n
    simp only [natToCharsAux]
    split
    · intro hm
      rw [List.mem_singleton] at hm
      exact digitChar_ne_newline n hm.symm
    · intro hm
      rcases List.mem_append.mp hm with h | h
      · exact ih _ h
      · rw [List.mem_singleton] at h
        exact digitChar_ne_newline _ h.symm

theorem natToChars_no_newline (n : Nat) : '\n' ∉ natToChars n :=
  natToCharsAux_no_newline _ _

theorem trackCallText_no_newline (n : Nat) : '\n' ∉ trackCallText n := by
  unfold trackCallText
  simp only [List.mem_append, not_or]
  refine ⟨⟨by decide, natToChars_no_newline n⟩, by decide⟩

theorem instrumentLine_no_newline {idx : Nat} {line : List Char}
    (h : '\n' ∉ line) : '\n' ∉ instrumentLine idx line := by
  unfold instrumentLine
  split
  · exact h
  · intro hm
    rcases List.mem_append.mp hm with h' | h'
    · exact trackCallText_no_newline _ h'
    · exact h h'

theorem enumLines_length :
    ∀ (ls : List (List Char)) (i : Nat), (enumLines i ls).length = ls.length := by
  intro ls
  induction ls with
  | nil => intro i; rfl
  | cons l ls ih => intro i; simp [enumLines, ih]

theorem mem_enumLines {p : Nat × List Char} :
    ∀ {ls : List (List Char)} {i : Nat}, p ∈ enumLines i ls → p.2 ∈ ls := by
  intro ls
  induction ls with
  | nil => intro i h; simp [enumLines] at h
  | cons l ls ih =>
    intro i h
    rcases List.mem_cons.mp h with h | h
    · rw [h]
      exact List.mem_cons_self _ _
    · exact List.mem_cons_of_mem _ (ih h)

theorem getElem?_map_enumLines (f : Nat × List Char → List Char) :
    ∀ (ls : List (List Char)) (i j : Nat),
      ((enumLines i ls).map f)[j]? = ls[j]?.map fun l => f (i + j, l) := by
  intro ls
  induction ls with
  | nil => intro i j; simp [enumLines]
  | cons l ls ih =>
    intro i j
    cases j with
    | zero => simp [enumLines]
    | succ j =>
      simp only [enumLines, List.map_cons, List.getElem?_cons_succ, ih (i + 1) j,
        show i + 1 + j = i + (j + 1) from by omega]

theorem splitNl_instrumentCode (code : List Char) :
    splitNl (instrumentCode code) =
      (enumLines 0 (splitNl code)).map fun p => instrumentLine p.1 p.2 := by
  unfold instrumentCode
  apply splitNl_joinNl
  · intro h
    cases hs : splitNl code with
    | nil => exact splitNl_ne_nil code hs
    | cons a as => rw [hs] at h; simp [enumLines] at h
  · intro x hx
    rcases List.mem_map.mp hx with ⟨p, hp, he⟩
    exact he ▸ instrumentLine_no_newline (noNl_mem_splitNl (mem_enumLines hp))

/-- C3.  Instrumenter contract: `instrumentCode` returns text with the same
number of lines, in which every line that is non-empty after trimming and
does not start with the single-line comment marker is prefixed with a
tracking call carrying its 1-based line number, and every blank or
comment-only line is returned unmodified. -/
theorem instrumenter_contract (code : List Char) :
    (splitNl (instrumentCode code)).length = (splitNl code).length ∧
    ∀ i : Nat,
      (splitNl (instrumentCode code))[i]? =
        ((splitNl code)[i]?).map fun l =>
          if (jsTrim l).isEmpty
             || List.isPrefixOf (String.toList "//") (jsTrim l) then l
          else trackCallText (i + 1) ++ l := by
  have hsp := splitNl_instrumentCode code
  constructor
  · rw [hsp, List.length_map, enumLines_length]
  · intro i
    rw [hsp, getElem?_map_enumLines]
    simp only [Nat.zero_add, instrumentLine, skippedLine]

theorem trackHook_armed {st : ExecutionState} {l : Nat} (h : l ∈ st.breakpoints) :
    trackHook st l =
      ({ st with currentLine := l
                 executionHistory :=
                   st.executionHistory ++ [Entry.line st.step l st.vars]
                 step := st.step + 1
                 isPaused := true }, some (breakpointMsg l)) := by
  simp [trackHook, h]

theorem trackHook_unarmed {st : ExecutionState} {l : Nat} (h : l ∉ st.breakpoints) :
    trackHook st l =
      ({ st with currentLine := l
                 executionHistory :=
                   st.executionHistory ++ [Entry.line st.step l st.vars]
                 step := st.step + 1 }, none) := by
  simp [trackHook, h]

theorem lineVisitLines_append (h1 h2 : List Entry) :
    lineVisitLines (h1 ++ h2) = lineVisitLines h1 ++ lineVisitLines h2 := by
  simp [lineVisitLines, List.filterMap_append]

theorem lastLineVisit_snoc_line (hist : List Entry) (s L : Nat)
    (v : List (String × String)) :
    lastLineVisit (hist ++ [Entry.line s L v]) = some L := by
  unfold lastLineVisit
  rw [lineVisitLines_append]
  simp [lineVisitLines]

theorem lastLineVisit_snoc_error (hist : List Entry) (s : Nat) (m : String)
    (l : Nat) :
    lastLineVisit (hist ++ [Entry.error s m l]) = lastLineVisit hist := by
  unfold lastLineVisit
  rw [lineVisitLines_append]
  simp [lineVisitLines]

theorem visitsLine_track_cons {st : ExecutionState} {l L : Nat} {es : List Event}
    (hl : ¬l = L) (hbl : l ∉ st.breakpoints) :
    visitsLine st (Event.track l :: es) L =
      visitsLine
        { st with currentLine := l
                  executionHistory :=
                    st.executionHistory ++ [Entry.line st.step l st.vars]
                  step := st.step + 1 } es L := by
  rw [visitsLine, if_neg hl, trackHook_unarmed hbl]

theorem runEvents_track_cons {st : ExecutionState} {l : Nat} {es : List Event}
    (hbl : l ∉ st.breakpoints) :
    runEvents st (Event.track l :: es) =
      runEvents
        { st with currentLine := l
                  executionHistory :=
                    st.executionHistory ++ [Entry.line st.step l st.vars]
                  step := st.step + 1 } es := by
  rw [runEvents, trackHook_unarmed hbl]

theorem runEvents_track_armed {st : ExecutionState} {l : Nat} {es : List Event}
    (hbl : l ∈ st.breakpoints) :
    runEvents st (Event.track l :: es) =
      ({ st with currentLine := l
                 executionHistory :=
                   st.executionHistory ++ [Entry.line st.step l st.vars]
                 step := st.step + 1
                 isPaused := true }, some (breakpointMsg l)) := by
  rw [runEvents, trackHook_armed hbl]

theorem raisesProgError_track_cons {st : ExecutionState} {l : Nat}
    {es : List Event} (hbl : l ∉ st.breakpoints) :
    raisesProgError st (Event.track l :: es) =
      raisesProgError
        { st with currentLine := l
                  executionHistory :=
                    st.executionHistory ++ [Entry.line st.step l st.vars]
                  step := st.step + 1 } es := by
  rw [raisesProgError, trackHook_unarmed hbl]

theorem runEvents_visits_breakpoint :
    ∀ (events : List Event) (st : ExecutionState) (L : Nat),
      L ∈ st.breakpoints → visitsLine st events L = true →
      ∃ st', runEvents st events = (st', some (breakpointMsg L)) ∧
        st'.isPaused = true ∧
        lastLineVisit st'.executionHistory = some L := by
  intro events
  induction events with
  | nil => intro st L _ hv; simp [visitsLine] at hv
  | cons e es ih =>
    intro st L hbp hv
    cases e with
    | track l =>
      by_cases hl : l = L
      · subst hl
        refine ⟨_, runEvents_track_armed hbp, rfl, ?_⟩
        exact lastLineVisit_snoc_line _ _ _ _
      · by_cases hbl : l ∈ st.breakpoints
        · rw [visitsLine, if_neg hl, trackHook_armed hbl] at hv
          simp at hv
        · rw [visitsLine_track_cons hl hbl] at hv
          obtain ⟨st', h1, h2, h3⟩ :=
            ih ⟨l, st.vars, st.callStack,
                st.executionHistory ++ [Entry.line st.step l st.vars],
                st.breakpoints, st.isPaused, st.step + 1⟩ L hbp hv
          exact ⟨st', (runEvents_track_cons hbl).trans h1, h2, h3⟩
    | capture n v =>
      rw [visitsLine] at hv
      obtain ⟨st', h1, h2, h3⟩ := ih (captureVarHook st n v) L hbp hv
      exact ⟨st', h1, h2, h3⟩
    | consoleLog o =>
      rw [visitsLine] at hv
      obtain ⟨st', h1, h2, h3⟩ := ih (consoleHook st o) L hbp hv
      exact ⟨st', h1, h2, h3⟩
    | progError m => simp [visitsLine] at hv

theorem runEvents_no_interruption :
    ∀ (events : List Event) (st : ExecutionState),
      raisesProgError st events = false →
      (∀ L ∈ st.breakpoints, visitsLine st events L = false) →
      ∃ st', runEvents st events = (st', none) ∧ st'.isPaused = st.isPaused := by
  intro events
  induction events with
  | nil => intro st _ _; exact ⟨st, rfl, rfl⟩
  | cons e es ih =>
    intro st hre hbp
    cases e with
    | track l =>
      by_cases hbl : l ∈ st.breakpoints
      · have hv := hbp l hbl
        rw [visitsLine, if_pos rfl] at hv
        exact absurd hv (by simp)
      · rw [raisesProgError_track_cons hbl] at hre
        have hbp' : ∀ L ∈ st.breakpoints,
            visitsLine
              { st with currentLine := l
                        executionHistory :=
                          st.executionHistory ++ [Entry.line st.step l st.vars]
                        step := st.step + 1 } es L = false := by
          intro L hL
          have hv := hbp L hL
          by_cases hlL : l = L
          · exact absurd (hlL ▸ hL) hbl
          · rw [visitsLine_track_cons hlL hbl] at hv
            exact hv
        obtain ⟨st', h1, h2⟩ := ih _ hre hbp'
        exact ⟨st', (runEvents_track_cons hbl).trans h1, h2⟩
    | capture n v =>
      rw [raisesProgError] at hre
      have hbp' : ∀ L ∈ (captureVarHook st n v).breakpoints,
          visitsLine (captureVarHook st n v) es L = false := by
        intro L hL
        have hv := hbp L hL
        rw [visitsLine] at hv
        exact hv
      obtain ⟨st', h1, h2⟩ := ih (captureVarHook st n v) hre hbp'
      exact ⟨st', h1, h2⟩
    | consoleLog o =>
      rw [raisesProgError] at hre
      have hbp' : ∀ L ∈ (consoleHook st o).breakpoints,
          visitsLine (consoleHook st o) es L = false := by
        intro L hL
        have hv := hbp L hL
        rw [visitsLine] at hv
        exact hv
      obtain ⟨st', h1, h2⟩ := ih (consoleHook st o) hre hbp'
      exact ⟨st', h1, h2⟩
    | progError m => simp [raisesProgError] at hre

/-- C1 (amended).  Breakpoint law: if line `L` is armed and the tracking
hook is invoked with `L` during `execute()`, the run terminates abnormally
with the error `BREAKPOINT at line L`, the snapshot has `isPaused = true`,
and the last `line`-visit entry has line `L`; if no armed line is visited
and the program raises no error, `execute()` returns success with
`isPaused = false`.  (The second clause is amended: as written in the claim
it required only that `L` itself is never visited, which fails when a
different armed line fires.) -/
theorem breakpoint_law (eng : Engine) (events : List Event) (L : Nat)
    (hlang : eng.language = "javascript") :
    (L ∈ eng.executionState.breakpoints →
     visitsLine eng.executionState events L = true →
     (execute eng events).2 =
        ExecResult.failure (breakpointMsg L) (execute eng events).1.executionState ∧
     (execute eng events).1.executionState.isPaused = true ∧
     lastLineVisit (execute eng events).1.executionState.executionHistory = some L) ∧
    (eng.executionState.isPaused = false →
     raisesProgError eng.executionState events = false →
     (∀ L' ∈ eng.executionState.breakpoints,
        visitsLine eng.executionState events L' = false) →
     (execute eng events).2 =
        ExecResult.success (execute eng events).1.executionState ∧
     (execute eng events).1.executionState.isPaused = false) := by
  have hne : ¬(eng.language ≠ "javascript") := fun h => h hlang
  constructor
  · intro hbp hv
    obtain ⟨st', h1, h2, h3⟩ := runEvents_visits_breakpoint events _ L hbp hv
    simp only [execute, if_neg hne, h1]
    refine ⟨?_, h2, ?_⟩
    · trivial
    · simp only [errorPath]
      rw [lastLineVisit_snoc_error]
      exact h3
  · intro hp hre hbp
    obtain ⟨st', h1, h2⟩ := runEvents_no_interruption events _ hre hbp
    simp only [execute, if_neg hne, h1]
    refine ⟨?_, h2.trans hp⟩
    trivial

/-- Witness for C1: with a breakpoint armed on line 2 and a run that visits
lines 1, 2, 3, the run aborts at line 2 paused, and the last visit is 2. -/
theorem breakpoint_law_witness :
    (execute engC1w [Event.track 1, Event.track 2, Event.track 3]).2 =
      ExecResult.failure (breakpointMsg 2)
        (execute engC1w [Event.track 1, Event.track 2, Event.track 3]).1.executionState ∧
    (execute engC1w
        [Event.track 1, Event.track 2, Event.track 3]).1.executionState.isPaused = true ∧
    lastLineVisit (execute engC1w
        [Event.track 1, Event.track 2, Event.track 3]).1.executionState.executionHistory =
      some 2 :=
  (breakpoint_law engC1w [Event.track 1, Event.track 2, Event.track 3] 2 rfl).1
    (by decide) (by decide)

/-- Counterexample to C1 as stated: with breakpoints on lines 1 and 2 and a
run that visits only line 1, line `L = 2` is armed and never visited and
the program raises no error, yet `execute()` does not return success and
the snapshot is paused. -/
theorem breakpoint_law_counterexample :
    (2 ∈ engC1c.executionState.breakpoints ∧
     visitsLine engC1c.executionState [Event.track 1] 2 = false ∧
     raisesProgError engC1c.executionState [Event.track 1] = false ∧
     engC1c.executionState.isPaused = false) ∧
    ¬((execute engC1c [Event.track 1]).2 =
        ExecResult.success (execute engC1c [Event.track 1]).1.executionState) ∧
    (execute engC1c [Event.track 1]).1.executionState.isPaused = true := by
  decide

theorem map_stepOf_snoc {hist : List Entry} {e : Entry}
    (h : hist.map Entry.stepOf = List.range hist.length)
    (he : e.stepOf = hist.length) :
    (hist ++ [e]).map Entry.stepOf = List.range (hist ++ [e]).length := by
  rw [List.map_append, h, List.length_append]
  simp [List.range_succ, he]

theorem stepInv_trackHook {st : ExecutionState} (l : Nat) (h : stepInv st) :
    stepInv (trackHook st l).1 := by
  obtain ⟨h1, h2⟩ := h
  by_cases hb : l ∈ st.breakpoints
  · rw [trackHook_armed hb]
    exact ⟨by simp [h1], map_stepOf_snoc h2 (by simp [Entry.stepOf, h1])⟩
  · rw [trackHook_unarmed hb]
    exact ⟨by simp [h1], map_stepOf_snoc h2 (by simp [Entry.stepOf, h1])⟩

theorem stepInv_captureVarHook {st : ExecutionState} (n v : String)
    (h : stepInv st) : stepInv (captureVarHook st n v) := by
  obtain ⟨h1, h2⟩ := h
  unfold captureVarHook
  exact ⟨by simp [h1], map_stepOf_snoc h2 (by simp [Entry.stepOf, h1])⟩

theorem stepInv_consoleHook {st : ExecutionState} (o : String)
    (h : stepInv st) : stepInv (consoleHook st o) := by
  obtain ⟨h1, h2⟩ := h
  unfold consoleHook
  exact ⟨by simp [h1], map_stepOf_snoc h2 (by simp [Entry.stepOf, h1])⟩

theorem stepInv_errorPath {st : ExecutionState} (m : String)
    (h : stepInv st) : stepInv (errorPath st m) := by
  obtain ⟨h1, h2⟩ := h
  unfold errorPath
  exact ⟨by simp [h1], map_stepOf_snoc h2 (by simp [Entry.stepOf, h1])⟩

theorem stepInv_runEvents :
    ∀ (events : List Event) (st : ExecutionState), stepInv st →
      stepInv (runEvents st events).1 := by
  intro events
  induction events with
  | nil => intro st h; exact h
  | cons e es ih =>
    intro st h
    cases e with
    | track l =>
      by_cases hbl : l ∈ st.breakpoints
      · rw [runEvents_track_armed hbl]
        have := stepInv_trackHook l h
        rwa [trackHook_armed hbl] at this
      · rw [runEvents_track_cons hbl]
        apply ih
        have := stepInv_trackHook l h
        rwa [trackHook_unarmed hbl] at this
    | capture n v => exact ih (captureVarHook st n v) (stepInv_captureVarHook n v h)
    | consoleLog o => exact ih (consoleHook st o) (stepInv_consoleHook o h)
    | progError m => exact h

/-- C2.  Step-counter invariant: after every engine operation (the tracking
hook, the variable-capture hook, the console substitute, the catch-path of
`execute()`, and `execute()` itself) the `step` field equals
`executionHistory.length`, and the `step` values stored in the history are
contiguous from 0 (hence strictly increasing and unique). -/
theorem step_counter_invariant :
    stepInv initialState ∧
    (∀ (st : ExecutionState) (l : Nat), stepInv st → stepInv (trackHook st l).1) ∧
    (∀ (st : ExecutionState) (n v : String), stepInv st →
       stepInv (captureVarHook st n v)) ∧
    (∀ (st : ExecutionState) (o : String), stepInv st → stepInv (consoleHook st o)) ∧
    (∀ (st : ExecutionState) (m : String), stepInv st → stepInv (errorPath st m)) ∧
    (∀ (eng : Engine) (events : List Event), stepInv eng.executionState →
       stepInv (execute eng events).1.executionState ∧
       ((execute eng events).1.executionState.executionHistory.map
          Entry.stepOf).Pairwise (· < ·)) := by
  refine ⟨by decide, fun st l h => stepInv_trackHook l h,
    fun st n v h => stepInv_captureVarHook n v h,
    fun st o h => stepInv_consoleHook o h,
    fun st m h => stepInv_errorPath m h, fun eng events h => ?_⟩
  have hex : stepInv (execute eng events).1.executionState := by
    unfold execute
    split
    · exact h
    · cases hr : runEvents eng.executionState events with
      | mk st res =>
        cases res with
        | none =>
          have := stepInv_runEvents events eng.executionState h
          rw [hr] at this
          exact this
        | some m =>
          have := stepInv_runEvents events eng.executionState h
          rw [hr] at this
          exact stepInv_errorPath m this
  refine ⟨hex, ?_⟩
  rw [hex.2]
  exact List.pairwise_lt_range _

/-- Witness for C2: the invariant holds concretely after a run that tracks a
line, captures a variable, and logs to the console. -/
theorem step_counter_invariant_witness :
    stepInv (execute initialEngine
      [Event.track 1, Event.capture "x" "1", Event.consoleLog "3"]).1.executionState ∧
    ((execute initialEngine
      [Event.track 1, Event.capture "x" "1", Event.consoleLog "3"]).1.executionState.executionHistory.map
        Entry.stepOf).Pairwise (· < ·) :=
  step_counter_invariant.2.2.2.2.2 initialEngine
    [Event.track 1, Event.capture "x" "1", Event.consoleLog "3"] (by decide)

/-- Counterexample to C4 as stated: a breakpoint armed on line 3 is removed
by `reset()` — the breakpoints set does not persist. -/
theorem reset_counterexample :
    (addBreakpoint initialEngine 3).executionState.breakpoints = [3] ∧
    (reset (addBreakpoint initialEngine 3)).executionState.breakpoints = [] := by
  decide

/-- C4 (amended).  `reset()` returns the Execution State to its initial form
(`currentLine` 0, empty variables, empty history, step 0, `isPaused` false)
and also replaces the breakpoints set with a fresh empty one: breakpoints do
not persist across resets.  The stored code and language are untouched. -/
theorem reset_restores_initial (eng : Engine) :
    reset eng = { eng with executionState := initialState } ∧
    (reset eng).code = eng.code ∧
    (reset eng).language = eng.language ∧
    (reset eng).executionState.currentLine = 0 ∧
    (reset eng).executionState.vars = [] ∧
    (reset eng).executionState.executionHistory = [] ∧
    (reset eng).executionState.step = 0 ∧
    (reset eng).executionState.isPaused = false ∧
    (reset eng).executionState.breakpoints = [] :=
  ⟨rfl, rfl, rfl, rfl, rfl, rfl, rfl, rfl, rfl⟩

/-- C8.  Unsupported-language error: for a stored language tag other than
`javascript`, `execute()` returns the error result immediately with the
engine — in particular its Execution State, its history, and its step
counter — unchanged. -/
theorem unsupported_language (eng : Engine) (events : List Event)
    (h : eng.language ≠ "javascript") :
    execute eng events =
      (eng, ExecResult.failure "Only JavaScript execution is supported in browser"
              eng.executionState) := by
  unfold execute
  rw [if_pos h]

/-- Witness for C8: a `python` engine is rejected unchanged. -/
theorem unsupported_language_witness :
    execute engC8 [Event.track 1] =
      (engC8, ExecResult.failure "Only JavaScript execution is supported in browser"
                engC8.executionState) :=
  unsupported_language engC8 [Event.track 1] (by decide)

/-- C10.  `stepNext()` only sets `isPaused` to false; every other field of
the Execution State and the stored code and language are unchanged, and no
line is executed (the history is untouched). -/
theorem step_next_frame (eng : Engine) :
    stepNext eng =
      { eng with executionState := { eng.executionState with isPaused := false } } ∧
    (stepNext eng).code = eng.code ∧
    (stepNext eng).language = eng.language ∧
    (stepNext eng).executionState.currentLine = eng.executionState.currentLine ∧
    (stepNext eng).executionState.vars = eng.executionState.vars ∧
    (stepNext eng).executionState.callStack = eng.executionState.callStack ∧
    (stepNext eng).executionState.executionHistory =
      eng.executionState.executionHistory ∧
    (stepNext eng).executionState.breakpoints = eng.executionState.breakpoints ∧
    (stepNext eng).executionState.step = eng.executionState.step ∧
    (stepNext eng).executionState.isPaused = false :=
  ⟨rfl, rfl, rfl, rfl, rfl, rfl, rfl, rfl, rfl, rfl⟩

/-- C5 (amended).  Flow-graph edge rule: `getExecutionFlow()` emits, for each
emitted node, an edge from the line immediately before the node's line —
`node.line - 1`, whether or not that line is blank — to the node's line,
except for the node of the first line and nodes whose trimmed line begins
with a closing brace or with `else`, which get no incoming edge.  (Amended:
the claim said the edge starts at the immediately preceding non-blank line,
but the source uses the preceding line number unconditionally.) -/
theorem flow_edge_rule (eng : Engine) :
    (getExecutionFlow eng).edges =
      (getExecutionFlow eng).nodes.filterMap fun n =>
        if decide (1 < n.line)
           && !List.isPrefixOf (String.toList "\x7d") n.code
           && !List.isPrefixOf (String.toList "else") n.code then
          some { fromLine := n.line - 1, toLine := n.line }
        else none := by
  show flowEdges eng = (flowNodes eng).filterMap _
  unfold flowEdges flowNodes
  rw [List.filterMap_filterMap]
  congr 1
  funext p
  by_cases hE : (jsTrim p.2).isEmpty
  · simp [hE]
  · simp only [hE, Bool.false_eq_true, if_false, Option.some_bind]
    have hd : decide (1 < p.1 + 1) = decide (0 < p.1) := by
      simp [decide_eq_decide]
    simp only [hd, Nat.add_sub_cancel]

/-- Counterexample to C5 as stated: with source `a\n\nb`, the node for line
3 receives its edge from line 2, which is blank; the immediately preceding
non-blank line is line 1, and no edge from line 1 is emitted. -/
theorem flow_edge_counterexample :
    (getExecutionFlow engC5).edges = [{ fromLine := 2, toLine := 3 }] ∧
    jsTrim ((splitNl engC5.code).getD 1 []) = [] ∧
    jsTrim ((splitNl engC5.code).getD 0 []) ≠ [] ∧
    ¬((getExecutionFlow engC5).edges = [{ fromLine := 1, toLine := 3 }]) := by
  decide

theorem hasLineVisit_append (h1 h2 : List Entry) (L : Nat) :
    hasLineVisit (h1 ++ h2) L = (hasLineVisit h1 L || hasLineVisit h2 L) := by
  simp [hasLineVisit, List.any_append]

theorem hasLineVisit_mono {h1 : List Entry} (h2 : List Entry) {L : Nat}
    (h : hasLineVisit h1 L = true) : hasLineVisit (h1 ++ h2) L = true := by
  simp [hasLineVisit_append, h]

theorem hasLineVisit_snoc_line (hist : List Entry) (s L : Nat)
    (v : List (String × String)) :
    hasLineVisit (hist ++ [Entry.line s L v]) L = true := by
  simp [hasLineVisit_append, hasLineVisit, Entry.isLineVisit]

theorem lineInv_append_current {hist : List Entry} {cur : Nat} {e : Entry}
    (hc : cur = 0 ∨ hasLineVisit hist cur = true)
    (hm : ∀ x ∈ hist, x.lineOf = 0 ∨ hasLineVisit hist x.lineOf = true)
    (he : e.lineOf = cur) :
    (cur = 0 ∨ hasLineVisit (hist ++ [e]) cur = true) ∧
    ∀ x ∈ hist ++ [e],
      x.lineOf = 0 ∨ hasLineVisit (hist ++ [e]) x.lineOf = true := by
  have hc' : cur = 0 ∨ hasLineVisit (hist ++ [e]) cur = true :=
    hc.imp (fun h => h) fun h => hasLineVisit_mono _ h
  refine ⟨hc', ?_⟩
  intro x hx
  rcases List.mem_append.mp hx with hx | hx
  · exact (hm x hx).imp (fun h => h) fun h => hasLineVisit_mono _ h
  · rw [List.mem_singleton] at hx
    subst hx
    rw [he]
    exact hc'

theorem lineInv_trackHook {st : ExecutionState} (l : Nat) (h : lineInv st) :
    lineInv (trackHook st l).1 := by
  obtain ⟨_, h2⟩ := h
  have hnew := hasLineVisit_snoc_line st.executionHistory st.step l st.vars
  have hmem : ∀ e ∈ st.executionHistory ++ [Entry.line st.step l st.vars],
      e.lineOf = 0 ∨
      hasLineVisit (st.executionHistory ++ [Entry.line st.step l st.vars])
        e.lineOf = true := by
    intro e he
    rcases List.mem_append.mp he with he | he
    · exact (h2 e he).imp (fun h => h) fun h => hasLineVisit_mono _ h
    · rw [List.mem_singleton] at he
      subst he
      exact Or.inr hnew
  by_cases hb : l ∈ st.breakpoints
  · rw [trackHook_armed hb]
    exact ⟨Or.inr hnew, hmem⟩
  · rw [trackHook_unarmed hb]
    exact ⟨Or.inr hnew, hmem⟩

theorem lineInv_captureVarHook {st : ExecutionState} (n v : String)
    (h : lineInv st) : lineInv (captureVarHook st n v) := by
  obtain ⟨h1, h2⟩ := h
  unfold lineInv captureVarHook
  exact lineInv_append_current h1 h2 rfl

theorem lineInv_consoleHook {st : ExecutionState} (o : String)
    (h : lineInv st) : lineInv (consoleHook st o) := by
  obtain ⟨h1, h2⟩ := h
  unfold lineInv consoleHook
  exact lineInv_append_current h1 h2 rfl

theorem lineInv_errorPath {st : ExecutionState} (m : String)
    (h : lineInv st) : lineInv (errorPath st m) := by
  obtain ⟨h1, h2⟩ := h
  unfold lineInv errorPath
  exact lineInv_append_current h1 h2 rfl

theorem lineInv_runEvents :
    ∀ (events : List Event) (st : ExecutionState), lineInv st →
      lineInv (runEvents st events).1 := by
  intro events
  induction events with
  | nil => intro st h; exact h
  | cons e es ih =>
    intro st h
    cases e with
    | track l =>
      by_cases hbl : l ∈ st.breakpoints
      · rw [runEvents_track_armed hbl]
        have := lineInv_trackHook l h
        rwa [trackHook_armed hbl] at this
      · rw [runEvents_track_cons hbl]
        apply ih
        have := lineInv_trackHook l h
        rwa [trackHook_unarmed hbl] at this
    | capture n v => exact ih (captureVarHook st n v) (lineInv_captureVarHook n v h)
    | consoleLog o => exact ih (consoleHook st o) (lineInv_consoleHook o h)
    | progError m => exact h

theorem any_lineOf_eq_hasLineVisit {hist : List Entry} {L : Nat} (hL : L ≠ 0)
    (hinv : ∀ e ∈ hist, e.lineOf = 0 ∨ hasLineVisit hist e.lineOf = true) :
    (hist.any fun h => h.lineOf == L) = hasLineVisit hist L := by
  cases hA : hist.any fun h => h.lineOf == L
  · cases hB : hasLineVisit hist L
    · rfl
    · exfalso
      rw [hasLineVisit, List.any_eq_true] at hB
      obtain ⟨e, he, hv⟩ := hB
      have hline : e.lineOf = L := by
        cases e <;> simp_all [Entry.isLineVisit, Entry.lineOf]
      rw [List.any_eq_false] at hA
      exact hA e he (by simp [hline])
  · rw [List.any_eq_true] at hA
    obtain ⟨e, he, hbeq⟩ := hA
    have heq : e.lineOf = L := by simpa using hbeq
    rcases hinv e he with h0 | hv
    · exact absurd (heq.symm.trans h0) hL
    · rw [heq] at hv
      rw [hv]

/-- C6.  Executed-flag derivation: for every Execution State reachable
through the engine's operations (characterised by the invariant `lineInv`,
which holds initially and is preserved by every operation), each flow node's
`executed` flag equals the presence of a `line`-visit entry for that node's
line; in particular, with an empty history all flags are false. -/
theorem executed_flag_rule :
    (∀ eng : Engine, lineInv eng.executionState →
       ∀ n ∈ (getExecutionFlow eng).nodes,
         n.executed = hasLineVisit eng.executionState.executionHistory n.line) ∧
    lineInv initialState ∧
    (∀ (eng : Engine) (events : List Event), lineInv eng.executionState →
       lineInv (execute eng events).1.executionState) ∧
    (∀ (eng : Engine) (l : Nat), lineInv eng.executionState →
       lineInv (addBreakpoint eng l).executionState ∧
       lineInv (removeBreakpoint eng l).executionState ∧
       lineInv (stepNext eng).executionState) ∧
    (∀ (eng : Engine) (code : List Char) (lang : String),
       lineInv (setCode eng code lang).executionState ∧
       lineInv (reset eng).executionState) ∧
    (∀ eng : Engine, eng.executionState.executionHistory = [] →
       ∀ n ∈ (getExecutionFlow eng).nodes, n.executed = false) := by
  have hmain : ∀ eng : Engine, lineInv eng.executionState →
      ∀ n ∈ (getExecutionFlow eng).nodes,
        n.executed = hasLineVisit eng.executionState.executionHistory n.line := by
    intro eng hinv n hn
    obtain ⟨p, _, hf⟩ := List.mem_filterMap.mp hn
    by_cases hE : (jsTrim p.2).isEmpty
    · rw [if_pos hE] at hf
      exact absurd hf (by simp)
    · rw [if_neg hE] at hf
      rw [Option.some_inj] at hf
      subst hf
      exact any_lineOf_eq_hasLineVisit (Nat.succ_ne_zero p.1) hinv.2
  refine ⟨hmain, by decide, ?_, ?_, ?_, ?_⟩
  · intro eng events h
    unfold execute
    split
    · exact h
    · cases hr : runEvents eng.executionState events with
      | mk st res =>
        cases res with
        | none =>
          have := lineInv_runEvents events eng.executionState h
          rw [hr] at this
          exact this
        | some m =>
          have := lineInv_runEvents events eng.executionState h
          rw [hr] at this
          exact lineInv_errorPath m this
  · intro eng l h
    exact ⟨h, h, h⟩
  · intro eng code lang
    have hinit : lineInv initialState := by decide
    exact ⟨hinit, hinit⟩
  · intro eng hhist n hn
    obtain ⟨p, _, hf⟩ := List.mem_filterMap.mp hn
    by_cases hE : (jsTrim p.2).isEmpty
    · rw [if_pos hE] at hf
      exact absurd hf (by simp)
    · rw [if_neg hE] at hf
      rw [Option.some_inj] at hf
      subst hf
      simp [hhist]

/-- Witness for C6: the single node of a one-line source that has been run
carries `executed = true`, and this equals the history test. -/
theorem executed_flag_rule_witness :
    FlowNode.executed
        { id := 1, line := 1, code := String.toList "x = 1",
          type := "assignment", executed := true } =
      hasLineVisit engC6w.executionState.executionHistory
        (FlowNode.line
          { id := 1, line := 1, code := String.toList "x = 1",
            type := "assignment", executed := true }) :=
  executed_flag_rule.1 engC6w (by decide)
    { id := 1, line := 1, code := String.toList "x = 1",
      type := "assignment", executed := true } (by decide)

theorem le_foldr_max : ∀ {l : List Nat} {x : Nat}, x ∈ l → x ≤ l.foldr max 0 := by
  intro l
  induction l with
  | nil => intro x h; cases h
  | cons a as ih =>
    intro x h
    rcases List.mem_cons.mp h with h | h
    · subst h
      exact Nat.le_max_left _ _
    · calc x ≤ as.foldr max 0 := ih h
        _ ≤ max a (as.foldr max 0) := Nat.le_max_right _ _

theorem mem_entryKeys {hist : List Entry} {l : Nat} :
    l ∈ entryKeys hist ↔ 0 < visitCount hist l := by
  unfold entryKeys
  rw [List.mem_filter, List.mem_range]
  constructor
  · rintro ⟨_, h⟩
    exact of_decide_eq_true h
  · intro h
    refine ⟨?_, decide_eq_true h⟩
    have hm : l ∈ lineVisitLines hist := List.count_pos_iff.mp h
    have := le_foldr_max hm
    unfold maxVisitedLine
    omega

theorem mem_hotspotPairs {hist : List Entry} {p : Nat × Nat} :
    p ∈ hotspotPairs hist ↔
      10 < visitCount hist p.1 ∧ p.2 = visitCount hist p.1 := by
  unfold hotspotPairs
  rw [List.mem_insertionSort, List.mem_filter]
  constructor
  · rintro ⟨hmem, hgt⟩
    obtain ⟨l, _, he⟩ := List.mem_map.mp hmem
    have h1 : p.1 = l := by rw [← he]
    have h2 : p.2 = visitCount hist l := by rw [← he]
    rw [h1, h2]
    exact ⟨of_decide_eq_true (h2 ▸ hgt), rfl⟩
  · rintro ⟨hgt, hc⟩
    refine ⟨List.mem_map.mpr ⟨p.1, mem_entryKeys.mpr (by omega), ?_⟩,
      decide_eq_true (by omega)⟩
    cases p with
    | mk a b =>
      simp only at hc
      rw [hc]

theorem hotspotPairs_sorted (hist : List Entry) :
    (hotspotPairs hist).Pairwise countGe :=
  List.sorted_insertionSort countGe _

theorem nodup_map_fst_hotspotPairs (hist : List Entry) :
    ((hotspotPairs hist).map Prod.fst).Nodup := by
  have hperm : List.Perm (hotspotPairs hist)
      (((entryKeys hist).map fun l => (l, visitCount hist l)).filter
        fun p => 10 < p.2) :=
    List.perm_insertionSort _ _
  rw [(hperm.map Prod.fst).nodup_iff]
  have hsub : List.Sublist
      ((((entryKeys hist).map fun l => (l, visitCount hist l)).filter
        fun p => 10 < p.2).map Prod.fst)
      (((entryKeys hist).map fun l => (l, visitCount hist l)).map Prod.fst) :=
    (List.filter_sublist _).map Prod.fst
  have hid : (((entryKeys hist).map fun l => (l, visitCount hist l)).map
      Prod.fst) = entryKeys hist := by
    rw [List.map_map]
    exact List.map_id _
  have hnk : (entryKeys hist).Nodup :=
    List.Nodup.filter _ (List.nodup_range _)
  rw [hid] at hsub
  exact List.Nodup.sublist hsub hnk

theorem eq_singleton_of_nodup_mem {l : List Nat} {a : Nat} (hn : l.Nodup)
    (h : ∀ x, x ∈ l ↔ x = a) : l = [a] := by
  cases l with
  | nil => exact absurd ((h a).mpr rfl) (List.not_mem_nil a)
  | cons b bs =>
    have hb : b = a := (h b).mp (List.mem_cons_self _ _)
    subst hb
    cases bs with
    | nil => rfl
    | cons c cs =>
      have hc : c = b := (h c).mp (List.mem_cons_of_mem _ (List.mem_cons_self _ _))
      subst hc
      simp at hn

/-- C7.  Hotspot threshold and order: `analyzePerformance()` returns in
`hotspots` exactly the lines whose `line`-visit count is strictly greater
than 10, each carrying its count, sorted by descending visit count; a line
visited exactly 11 times with every other line at 10 or fewer appears
alone, and a line visited exactly 10 times never appears. -/
theorem hotspot_rule (eng : Engine) :
    (∀ l : Nat,
       l ∈ (analyzePerformance eng).hotspots.map Hotspot.line ↔
         10 < visitCount eng.executionState.executionHistory l) ∧
    ((analyzePerformance eng).hotspots.map Hotspot.executionCount).Pairwise
      (fun a b => b ≤ a) ∧
    (∀ h ∈ (analyzePerformance eng).hotspots,
       h.executionCount = visitCount eng.executionState.executionHistory h.line) ∧
    (∀ L : Nat, visitCount eng.executionState.executionHistory L = 11 →
       (∀ l : Nat, l ≠ L → visitCount eng.executionState.executionHistory l ≤ 10) →
       (analyzePerformance eng).hotspots.map Hotspot.line = [L]) ∧
    (∀ L : Nat, visitCount eng.executionState.executionHistory L = 10 →
       L ∉ (analyzePerformance eng).hotspots.map Hotspot.line) := by
  have hline : (analyzePerformance eng).hotspots.map Hotspot.line =
      (hotspotPairs eng.executionState.executionHistory).map Prod.fst := by
    unfold analyzePerformance
    simp only [List.map_map]
    rfl
  have hcount : (analyzePerformance eng).hotspots.map Hotspot.executionCount =
      (hotspotPairs eng.executionState.executionHistory).map Prod.snd := by
    unfold analyzePerformance
    simp only [List.map_map]
    rfl
  have hmem : ∀ l : Nat,
      l ∈ (analyzePerformance eng).hotspots.map Hotspot.line ↔
        10 < visitCount eng.executionState.executionHistory l := by
    intro l
    rw [hline, List.mem_map]
    constructor
    · rintro ⟨p, hp, he⟩
      have := (mem_hotspotPairs.mp hp).1
      rwa [he] at this
    · intro h
      exact ⟨(l, visitCount eng.executionState.executionHistory l),
        mem_hotspotPairs.mpr ⟨h, rfl⟩, rfl⟩
  refine ⟨hmem, ?_, ?_, ?_, ?_⟩
  · rw [hcount]
    exact (hotspotPairs_sorted _).map _ fun a b hab => hab
  · intro h hh
    have hh' : h ∈ (hotspotPairs eng.executionState.executionHistory).map
        fun p => Hotspot.mk p.1 p.2 ((splitNl eng.code).getD (p.1 - 1) []) := hh
    obtain ⟨p, hp, he⟩ := List.mem_map.mp hh'
    rw [← he]
    exact (mem_hotspotPairs.mp hp).2
  · intro L h11 hother
    refine eq_singleton_of_nodup_mem (hline ▸ nodup_map_fst_hotspotPairs _) ?_
    intro x
    rw [hmem x]
    constructor
    · intro hx
      by_contra hne
      have := hother x hne
      omega
    · intro hx
      subst hx
      omega
  · intro L h10
    rw [hmem L]
    omega

/-- Witness for C7: a history of exactly 11 visits to line 2 yields the
singleton hotspot list for line 2. -/
theorem hotspot_rule_witness :
    (analyzePerformance engC7).hotspots.map Hotspot.line = [2] :=
  (hotspot_rule engC7).2.2.2.1 2 (by decide) fun l hl => by
    have h1 : lineVisitLines histC7 = List.replicate 11 2 := by decide
    have h2 : visitCount engC7.executionState.executionHistory l =
        (List.replicate 11 2).count l := by
      rw [visitCount]
      show (lineVisitLines histC7).count l = _
      rw [h1]
    rw [h2, List.count_replicate]
    simp [Ne.symm hl]

/-- C9.  Empty-source safety: with the empty stored source and no recorded
steps, `getExecutionFlow()` returns no nodes and no edges and
`analyzePerformance()` returns `avgStepsPerLine = 0`; the divisor — the
source's line count — is never zero for any source. -/
theorem empty_source_safety (eng : Engine)
    (hcode : eng.code = []) (hstep : eng.executionState.step = 0) :
    (getExecutionFlow eng).nodes = [] ∧
    (getExecutionFlow eng).edges = [] ∧
    (analyzePerformance eng).avgStepsPerLine = 0 ∧
    ∀ code : List Char, (splitNl code).length ≠ 0 := by
  refine ⟨?_, ?_, ?_, ?_⟩
  · show flowNodes eng = []
    unfold flowNodes
    rw [hcode]
    rfl
  · show flowEdges eng = []
    unfold flowEdges
    rw [hcode]
    rfl
  · show (eng.executionState.step : ℚ) / ((splitNl eng.code).length : ℚ) = 0
    rw [hcode, hstep]
    norm_num
  · intro code
    intro h
    exact splitNl_ne_nil code (List.length_eq_zero.mp h)

/-- Witness for C9: the freshly constructed engine has empty source and no
steps, and the safe results hold for it. -/
theorem empty_source_safety_witness :
    (getExecutionFlow initialEngine).nodes = [] ∧
    (getExecutionFlow initialEngine).edges = [] ∧
    (analyzePerformance initialEngine).avgStepsPerLine = 0 :=
  ⟨(empty_source_safety initialEngine rfl rfl).1,
   (empty_source_safety initialEngine rfl rfl).2.1,
   (empty_source_safety initialEngine rfl rfl).2.2.1⟩

end CodeLand
